import Mathlib

/-!
Verification of the options valuation engine (Black-Scholes closed form,
CRR binomial lattice, Monte Carlo simulation, implied-volatility solver,
multi-leg strategy composer) against its natural-language specification.
The definitions below are shallow embeddings of the corresponding Python
source functions over exact real arithmetic.
-/

open MeasureTheory Set

open scoped Classical

/-- Shared error taxonomy of the engine: validation failures at
construction, lattice model errors, arbitrage-bound violations and
root-finding convergence failures. -/
inductive PriceErr where
  | validation : PriceErr
  | modelErr : PriceErr
  | arbitrageViolation : PriceErr
  | convergence : PriceErr
deriving DecidableEq

/-- Option kind, mirroring the call and put string tags of the source. -/
inductive OptKind where
  | call : OptKind
  | put : OptKind
deriving DecidableEq

namespace BlackScholes

/-- Standard normal cumulative distribution function, the norm.cdf of the
source, expressed as a Gaussian integral. -/
noncomputable def normCdf (x : ℝ) : ℝ :=
(∫ t in Iic x, Real.exp (-t ^ 2 / 2)) / Real.sqrt (2 * Real.pi)

/-- Parameters stored by the BlackScholes constructor. -/
structure Inputs where
  S : ℝ
  K : ℝ
  T : ℝ
  r : ℝ
  sigma : ℝ

/-- BlackScholes.__init__ : stores the parameters after rejecting any
non-positive S, K, T or sigma with a ValueError. -/
noncomputable def init (S K T r sigma : ℝ) : Except PriceErr Inputs :=
if S ≤ 0 then Except.error PriceErr.validation
else if K ≤ 0 then Except.error PriceErr.validation
else if T ≤ 0 then Except.error PriceErr.validation
else if sigma ≤ 0 then Except.error PriceErr.validation
else Except.ok ⟨S, K, T, r, sigma⟩

/-- BlackScholes._d1_d2, first component. -/
noncomputable def d1 (S K T r sigma : ℝ) : ℝ :=
(Real.log (S / K) + (r + sigma ^ 2 / 2) * T) / (sigma * Real.sqrt T)

/-- BlackScholes._d1_d2, second component. -/
noncomputable def d2 (S K T r sigma : ℝ) : ℝ :=
d1 S K T r sigma - sigma * Real.sqrt T

/-- BlackScholes.call_price : S N(d1) - K exp(-rT) N(d2). -/
noncomputable def callPrice (S K T r sigma : ℝ) : ℝ :=
S * normCdf (d1 S K T r sigma) -
  K * Real.exp (-r * T) * normCdf (d2 S K T r sigma)

/-- BlackScholes.put_price : K exp(-rT) N(-d2) - S N(-d1). -/
noncomputable def putPrice (S K T r sigma : ℝ) : ℝ :=
K * Real.exp (-r * T) * normCdf (-d2 S K T r sigma) -
  S * normCdf (-d1 S K T r sigma)

end BlackScholes

namespace BinomialTree

/-- Parameters stored by the BinomialTree constructor. -/
structure Inputs where
  S : ℝ
  K : ℝ
  T : ℝ
  r : ℝ
  sigma : ℝ
  N : ℕ

variable (inp : Inputs)

/-- Time step dt = T / N. -/
noncomputable def dt : ℝ := inp.T / inp.N

/-- Up factor u = exp(sigma sqrt(dt)). -/
noncomputable def u : ℝ := Real.exp (inp.sigma * Real.sqrt (dt inp))

/-- Down factor d = 1 / u. -/
noncomputable def dFac : ℝ := 1 / u inp

/-- Risk-neutral up probability p = (exp(r dt) - d) / (u - d). -/
noncomputable def p : ℝ :=
(Real.exp (inp.r * dt inp) - dFac inp) / (u inp - dFac inp)

/-- Risk-neutral down probability q = 1 - p. -/
noncomputable def q : ℝ := 1 - p inp

/-- One-step discount factor exp(-r dt). -/
noncomputable def disc : ℝ := Real.exp (-inp.r * dt inp)

/-- Stock lattice: stock_tree[i][j] = S u^j d^(i-j). -/
noncomputable def stock (i j : ℕ) : ℝ :=
inp.S * u inp ^ j * dFac inp ^ (i - j)

/-- Call payoff max(x - K, 0). -/
noncomputable def callPayoff (x : ℝ) : ℝ := max (x - inp.K) 0

/-- Put payoff max(K - x, 0). -/
noncomputable def putPayoff (x : ℝ) : ℝ := max (inp.K - x) 0

/-- European backward induction, indexed by steps remaining to expiry:
euroVals pay k j is the option value at lattice step N - k, node j. -/
noncomputable def euroVals (pay : ℝ → ℝ) : ℕ → ℕ → ℝ
  | 0, j => pay (stock inp inp.N j)
  | k + 1, j =>
      disc inp * (p inp * euroVals pay k (j + 1) + q inp * euroVals pay k j)

/-- American backward induction with the early-exercise comparison:
amerVals pay k j is the option value at lattice step N - k, node j. -/
noncomputable def amerVals (pay : ℝ → ℝ) : ℕ → ℕ → ℝ
  | 0, j => pay (stock inp inp.N j)
  | k + 1, j =>
      max (disc inp *
          (p inp * amerVals pay k (j + 1) + q inp * amerVals pay k j))
        (pay (stock inp (inp.N - (k + 1)) j))

/-- BinomialTree.price_european_call. -/
noncomputable def priceEuropeanCall : ℝ := euroVals inp (callPayoff inp) inp.N 0

/-- BinomialTree.price_european_put. -/
noncomputable def priceEuropeanPut : ℝ := euroVals inp (putPayoff inp) inp.N 0

/-- BinomialTree.price_american_call. -/
noncomputable def priceAmericanCall : ℝ := amerVals inp (callPayoff inp) inp.N 0

/-- BinomialTree.price_american_put. -/
noncomputable def priceAmericanPut : ℝ := amerVals inp (putPayoff inp) inp.N 0

/-- Minimum of a list of reals, as Python min; none for an empty list. -/
noncomputable def listMin : List ℝ → Option ℝ
  | [] => none
  | x :: xs => some (xs.foldl min x)

/-- Maximum of a list of reals, as Python max; none for an empty list. -/
noncomputable def listMax : List ℝ → Option ℝ
  | [] => none
  | x :: xs => some (xs.foldl max x)

variable (inp : Inputs)

/-- Continuation value at step i, node j of the boundary loop, computed
from the American option values of step i + 1 (option_tree[i+1]). -/
noncomputable def contValue (pay : ℝ → ℝ) (i j : ℕ) : ℝ :=
disc inp * (p inp * amerVals inp pay (inp.N - (i + 1)) (j + 1) +
  q inp * amerVals inp pay (inp.N - (i + 1)) j)

/-- Early exercise is strictly optimal at step i, node j: the exercise
value strictly exceeds the continuation value and is strictly positive. -/
def exerciseOptimalAt (pay : ℝ → ℝ) (i j : ℕ) : Prop :=
contValue inp pay i j < pay (stock inp i j) ∧ 0 < pay (stock inp i j)

/-- Stock prices of the nodes of step i at which early exercise is
strictly optimal, collected in node order as in the source loop. -/
noncomputable def exercisePrices (pay : ℝ → ℝ) (i : ℕ) : List ℝ :=
((List.range (i + 1)).filter fun j =>
  decide (exerciseOptimalAt inp pay i j)).map fun j => stock inp i j

/-- BinomialTree.get_early_exercise_boundary at step i: the minimum
qualifying stock price for calls, the maximum for puts, none when no
node of the step qualifies. -/
noncomputable def earlyExerciseBoundary (ot : OptKind) (i : ℕ) : Option ℝ :=
match ot with
| OptKind.call => listMin (exercisePrices inp (callPayoff inp) i)
| OptKind.put => listMax (exercisePrices inp (putPayoff inp) i)

end BinomialTree

namespace ImpliedVolatilitySolver

/-- ImpliedVolatilitySolver.solve_iv_call : reject prices outside the
no-arbitrage band [max(S-K,0), S] with an ArbitrageViolationError, then
run the selected search method on the market price. -/
noncomputable def solveIvCall (S K : ℝ) (search : ℝ → Except PriceErr ℝ)
    (marketPrice : ℝ) : Except PriceErr ℝ :=
if marketPrice < max (S - K) 0 then Except.error PriceErr.arbitrageViolation
else if S < marketPrice then Except.error PriceErr.arbitrageViolation
else search marketPrice

/-- ImpliedVolatilitySolver.solve_iv_put : reject prices outside the
no-arbitrage band [max(K-S,0), K exp(-rT)], then run the selected search
method. -/
noncomputable def solveIvPut (S K T r : ℝ) (search : ℝ → Except PriceErr ℝ)
    (marketPrice : ℝ) : Except PriceErr ℝ :=
if marketPrice < max (K - S) 0 then Except.error PriceErr.arbitrageViolation
else if K * Real.exp (-r * T) < marketPrice then
  Except.error PriceErr.arbitrageViolation
else search marketPrice

/-- ImpliedVolatilitySolver._solve_newton_call : run the Newton search;
if it raises (divergence or non-convergence) or its result lies outside
the plausible band [0.01, 5.0], fall back to the Brent search on the
same market price. -/
noncomputable def solveNewtonCall (brent : ℝ → Except PriceErr ℝ)
    (newton : ℝ → Except Unit ℝ) (marketPrice : ℝ) : Except PriceErr ℝ :=
match newton marketPrice with
| Except.error _ => brent marketPrice
| Except.ok iv =>
    if iv < 0.01 ∨ 5 < iv then brent marketPrice else Except.ok iv

/-- ImpliedVolatilitySolver._solve_newton_put : identical fallback
structure for puts. -/
noncomputable def solveNewtonPut (brent : ℝ → Except PriceErr ℝ)
    (newton : ℝ → Except Unit ℝ) (marketPrice : ℝ) : Except PriceErr ℝ :=
match newton marketPrice with
| Except.error _ => brent marketPrice
| Except.ok iv =>
    if iv < 0.01 ∨ 5 < iv then brent marketPrice else Except.ok iv

end ImpliedVolatilitySolver

namespace MonteCarlo

/-- Parameters stored by the MonteCarlo constructor. -/
structure Inputs where
  S : ℝ
  K : ℝ
  T : ℝ
  r : ℝ
  sigma : ℝ

/-- MonteCarlo.__init__ : stores the five parameters and performs no
validation whatsoever. -/
def init (S K T r sigma : ℝ) : Except PriceErr Inputs :=
Except.ok ⟨S, K, T, r, sigma⟩

variable (inp : Inputs)

/-- Time step dt = T / n_steps. -/
noncomputable def dt (nSteps : ℕ) : ℝ := inp.T / nSteps

/-- Per-step drift (r - sigma^2 / 2) dt. -/
noncomputable def drift (nSteps : ℕ) : ℝ :=
(inp.r - inp.sigma ^ 2 / 2) * dt inp nSteps

/-- Per-step volatility sigma sqrt(dt). -/
noncomputable def vol (nSteps : ℕ) : ℝ :=
inp.sigma * Real.sqrt (dt inp nSteps)

/-- Z[i][j], the standard-normal draw consumed for path i at step j.
The source draws the whole matrix from the process-global NumPy
generator; that hidden state is modelled by the stream g together with
the offset off at which the call starts consuming it. -/
def zdraw (nSteps : ℕ) (g : ℕ → ℝ) (off i j : ℕ) : ℝ :=
g (off + i * nSteps + j)

/-- Log-return of path i at step j: drift + vol * Z[i][j]. -/
noncomputable def logret (nSteps : ℕ) (g : ℕ → ℝ) (off i j : ℕ) : ℝ :=
drift inp nSteps + vol inp nSteps * zdraw nSteps g off i j

/-- np.mean of the first n entries of v. -/
noncomputable def mcMean (n : ℕ) (v : ℕ → ℝ) : ℝ :=
(∑ i in Finset.range n, v i) / n

/-- np.std (population convention) of the first n entries of v. -/
noncomputable def mcStd (n : ℕ) (v : ℕ → ℝ) : ℝ :=
Real.sqrt (mcMean n (fun i => (v i - mcMean n v) ^ 2))

/-- Terminal price of path i in the European pricers:
S exp(cumulative log-return over all steps). -/
noncomputable def terminalPrice (nSteps : ℕ) (g : ℕ → ℝ) (off i : ℕ) : ℝ :=
inp.S * Real.exp (∑ j in Finset.range nSteps, logret inp nSteps g off i j)

/-- Discounted call payoff of path i: exp(-rT) max(S_T - K, 0). -/
noncomputable def discCallPayoff (nSteps : ℕ) (g : ℕ → ℝ) (off i : ℕ) : ℝ :=
Real.exp (-inp.r * inp.T) * max (terminalPrice inp nSteps g off i - inp.K) 0

/-- Discounted put payoff of path i: exp(-rT) max(K - S_T, 0). -/
noncomputable def discPutPayoff (nSteps : ℕ) (g : ℕ → ℝ) (off i : ℕ) : ℝ :=
Real.exp (-inp.r * inp.T) * max (inp.K - terminalPrice inp nSteps g off i) 0

/-- MonteCarlo.price_european_call : (price, standard error) as a
function of the modelled global draw stream and its current offset. -/
noncomputable def priceEuropeanCall (nSims nSteps : ℕ) (g : ℕ → ℝ)
    (off : ℕ) : ℝ × ℝ :=
(mcMean nSims (discCallPayoff inp nSteps g off),
 mcStd nSims (discCallPayoff inp nSteps g off) / Real.sqrt nSims)

/-- MonteCarlo.price_european_put. -/
noncomputable def priceEuropeanPut (nSims nSteps : ℕ) (g : ℕ → ℝ)
    (off : ℕ) : ℝ × ℝ :=
(mcMean nSims (discPutPayoff inp nSteps g off),
 mcStd nSims (discPutPayoff inp nSteps g off) / Real.sqrt nSims)

/-- European pricer selected by option kind. -/
noncomputable def priceEuropean (ot : OptKind) (nSims nSteps : ℕ)
    (g : ℕ → ℝ) (off : ℕ) : ℝ × ℝ :=
match ot with
| OptKind.call => priceEuropeanCall inp nSims nSteps g off
| OptKind.put => priceEuropeanPut inp nSims nSteps g off

/-- Full simulated path of the path-dependent pricers:
paths[i][0] = S, paths[i][t+1] = paths[i][t] exp(logret i t). -/
noncomputable def path (nSteps : ℕ) (g : ℕ → ℝ) (off i : ℕ) : ℕ → ℝ
  | 0 => inp.S
  | t + 1 => path nSteps g off i t * Real.exp (logret inp nSteps g off i t)

/-- Barrier condition tags of price_barrier_option. -/
inductive BarrierKind where
  | upOut : BarrierKind
  | downOut : BarrierKind
  | upIn : BarrierKind
  | downIn : BarrierKind
deriving DecidableEq

/-- np.any(paths >= barrier_level) over the whole row, spot included. -/
def hitUp (nSteps : ℕ) (g : ℕ → ℝ) (off i : ℕ) (level : ℝ) : Prop :=
∃ t, t ≤ nSteps ∧ level ≤ path inp nSteps g off i t

/-- np.any(paths <= barrier_level) over the whole row, spot included. -/
def hitDown (nSteps : ℕ) (g : ℕ → ℝ) (off i : ℕ) (level : ℝ) : Prop :=
∃ t, t ≤ nSteps ∧ path inp nSteps g off i t ≤ level

/-- Active-path condition of price_barrier_option: knock-outs are
active when the barrier was never hit, knock-ins when it was. -/
def active (bk : BarrierKind) (nSteps : ℕ) (g : ℕ → ℝ) (off i : ℕ)
    (level : ℝ) : Prop :=
match bk with
| BarrierKind.upOut => ¬hitUp inp nSteps g off i level
| BarrierKind.downOut => ¬hitDown inp nSteps g off i level
| BarrierKind.upIn => hitUp inp nSteps g off i level
| BarrierKind.downIn => hitDown inp nSteps g off i level

/-- Vanilla terminal payoff by option kind. -/
noncomputable def vanillaPayoff (ot : OptKind) (K x : ℝ) : ℝ :=
match ot with
| OptKind.call => max (x - K) 0
| OptKind.put => max (K - x) 0

/-- Discounted barrier payoff of path i: inactive paths contribute 0. -/
noncomputable def discBarrierPayoff (ot : OptKind) (bk : BarrierKind)
    (level : ℝ) (nSteps : ℕ) (g : ℕ → ℝ) (off i : ℕ) : ℝ :=
Real.exp (-inp.r * inp.T) *
  (if active inp bk nSteps g off i level then
    vanillaPayoff ot inp.K (path inp nSteps g off i nSteps)
  else 0)

/-- MonteCarlo.price_barrier_option : (price, standard error). -/
noncomputable def priceBarrierOption (ot : OptKind) (bk : BarrierKind)
    (level : ℝ) (nSims nSteps : ℕ) (g : ℕ → ℝ) (off : ℕ) : ℝ × ℝ :=
(mcMean nSims (discBarrierPayoff inp ot bk level nSteps g off),
 mcStd nSims (discBarrierPayoff inp ot bk level nSteps g off) /
   Real.sqrt nSims)

/-- Barrier direction, pairing each knock-in kind with the knock-out
kind of the same barrier side. -/
inductive BarrierDir where
  | up : BarrierDir
  | down : BarrierDir
deriving DecidableEq

/-- Knock-in kind of a direction. -/
def inKind : BarrierDir → BarrierKind
  | BarrierDir.up => BarrierKind.upIn
  | BarrierDir.down => BarrierKind.downIn

/-- Knock-out kind of a direction. -/
def outKind : BarrierDir → BarrierKind
  | BarrierDir.up => BarrierKind.upOut
  | BarrierDir.down => BarrierKind.downOut

/-- Discounted European payoff of path i, selected by option kind. -/
noncomputable def discEuroPayoff (ot : OptKind) (nSteps : ℕ) (g : ℕ → ℝ)
    (off i : ℕ) : ℝ :=
match ot with
| OptKind.call => discCallPayoff inp nSteps g off i
| OptKind.put => discPutPayoff inp nSteps g off i

end MonteCarlo

namespace OptionStrategy

/-- Position tag of a leg: long (buy) or short (sell). -/
inductive Pos where
  | long : Pos
  | short : Pos
deriving DecidableEq

/-- OptionLeg of strategies.py. -/
structure Leg where
  optionType : OptKind
  strike : ℝ
  position : Pos
  quantity : ℤ

/-- Black-Scholes premium of one leg, as priced inside
calculate_total_premium. -/
noncomputable def legPrice (S T r sigma : ℝ) (leg : Leg) : ℝ :=
match leg.optionType with
| OptKind.call => BlackScholes.callPrice S leg.strike T r sigma
| OptKind.put => BlackScholes.putPrice S leg.strike T r sigma

/-- OptionStrategy.calculate_total_premium : premia times quantity,
added for long legs and subtracted for short legs. -/
noncomputable def totalPremium (S T r sigma : ℝ) (legs : List Leg) : ℝ :=
(legs.map fun leg =>
  match leg.position with
  | Pos.long => legPrice S T r sigma leg * leg.quantity
  | Pos.short => -(legPrice S T r sigma leg * leg.quantity)).sum

/-- Intrinsic expiry payoff of one leg at stock price x. -/
noncomputable def legPayoff (leg : Leg) (x : ℝ) : ℝ :=
match leg.optionType with
| OptKind.call => max (x - leg.strike) 0
| OptKind.put => max (leg.strike - x) 0

/-- OptionStrategy.calculate_payoff at one stock price: signed summed
intrinsic payoffs minus the net premium. -/
noncomputable def payoff (S T r sigma : ℝ) (legs : List Leg) (x : ℝ) : ℝ :=
(legs.map fun leg =>
  match leg.position with
  | Pos.long => legPayoff leg x * leg.quantity
  | Pos.short => -(legPayoff leg x * leg.quantity)).sum -
  totalPremium S T r sigma legs

/-- Evaluation grid of calculate_max_profit_loss:
np.linspace(0.1 S, 3 S, 1000). -/
noncomputable def grid (S : ℝ) (i : ℕ) : ℝ :=
S * 0.1 + i * (S * 3 - S * 0.1) / 999

/-- np.max of the payoff over the 1000 grid points. -/
noncomputable def sampledMax (S T r sigma : ℝ) (legs : List Leg) : ℝ :=
(Finset.range 1000).sup' (Finset.nonempty_range_iff.mpr (by norm_num))
  fun i => payoff S T r sigma legs (grid S i)

/-- np.min of the payoff over the 1000 grid points. -/
noncomputable def sampledMin (S T r sigma : ℝ) (legs : List Leg) : ℝ :=
(Finset.range 1000).inf' (Finset.nonempty_range_iff.mpr (by norm_num))
  fun i => payoff S T r sigma legs (grid S i)

/-- OptionStrategy.calculate_max_profit_loss : (max profit, max loss);
none renders the np.inf / -np.inf unbounded reports. Max profit is
replaced by infinity when the payoff still increases at the last two
grid points, max loss by -infinity when the payoff decreases between
the first two grid points. -/
noncomputable def maxProfitLoss (S T r sigma : ℝ) (legs : List Leg) :
    Option ℝ × Option ℝ :=
(if payoff S T r sigma legs (grid S 999) >
    payoff S T r sigma legs (grid S 998) then none
 else some (sampledMax S T r sigma legs),
 if payoff S T r sigma legs (grid S 0) <
    payoff S T r sigma legs (grid S 1) then none
 else some (sampledMin S T r sigma legs))

end OptionStrategy

namespace BlackScholes

lemma gauss_integrable : Integrable (fun t : ℝ => Real.exp (-t ^ 2 / 2)) := by
have h : (fun t : ℝ => Real.exp (-t ^ 2 / 2)) =
    fun t : ℝ => Real.exp (-(1 / 2 : ℝ) * t ^ 2) := by
  funext t; ring_nf
rw [h]
exact integrable_exp_neg_mul_sq (by norm_num)

lemma gauss_total :
    (∫ t : ℝ, Real.exp (-t ^ 2 / 2)) = Real.sqrt (2 * Real.pi) := by
have h : (fun t : ℝ => Real.exp (-t ^ 2 / 2)) =
    fun t : ℝ => Real.exp (-(1 / 2 : ℝ) * t ^ 2) := by
  funext t; ring_nf
calc (∫ t : ℝ, Real.exp (-t ^ 2 / 2))
      = ∫ t : ℝ, Real.exp (-(1 / 2 : ℝ) * t ^ 2) := by rw [h]
  _ = Real.sqrt (Real.pi / (1 / 2 : ℝ)) := integral_gaussian (1 / 2 : ℝ)
  _ = Real.sqrt (2 * Real.pi) := by norm_num [mul_comm]

/-- Symmetry of the standard normal CDF: N(x) + N(-x) = 1. -/
lemma normCdf_add_neg (x : ℝ) : normCdf x + normCdf (-x) = 1 := by
have hsym : (∫ t in Iic (-x), Real.exp (-t ^ 2 / 2)) =
    ∫ t in Ioi x, Real.exp (-t ^ 2 / 2) := by
  have heven : ∀ t : ℝ, Real.exp (-(-t) ^ 2 / 2) = Real.exp (-t ^ 2 / 2) := by
    intro t; rw [neg_sq]
  calc (∫ t in Iic (-x), Real.exp (-t ^ 2 / 2))
        = ∫ t in Iic (-x), Real.exp (-(-t) ^ 2 / 2) := by
          simp only [heven]
    _ = ∫ t in Ioi x, Real.exp (-t ^ 2 / 2) := by
          rw [integral_comp_neg_Iic (-x) (fun t => Real.exp (-t ^ 2 / 2))]
          rw [neg_neg]
have hsplit : (∫ t in Iic x, Real.exp (-t ^ 2 / 2)) +
    (∫ t in Ioi x, Real.exp (-t ^ 2 / 2)) =
    ∫ t : ℝ, Real.exp (-t ^ 2 / 2) := by
  have := integral_add_compl (measurableSet_Iic (a := x)) gauss_integrable
  rwa [compl_Iic] at this
have hpos : (0 : ℝ) < Real.sqrt (2 * Real.pi) :=
  Real.sqrt_pos.mpr (by positivity)
unfold normCdf
rw [hsym, div_add_div_same, hsplit, gauss_total]
exact div_self (ne_of_gt hpos)

end BlackScholes

namespace BinomialTree

variable (inp : Inputs)

lemma one_lt_u (hT : 0 < inp.T) (hsig : 0 < inp.sigma) (hN : 1 ≤ inp.N) :
    1 < u inp := by
have hdt : 0 < dt inp := by
  have : (0 : ℝ) < (inp.N : ℝ) := by
    exact_mod_cast Nat.lt_of_lt_of_le Nat.zero_lt_one hN
  exact div_pos hT this
have : 0 < inp.sigma * Real.sqrt (dt inp) :=
  mul_pos hsig (Real.sqrt_pos.mpr hdt)
exact Real.one_lt_exp_iff.mpr this

lemma dFac_pos (hT : 0 < inp.T) (hsig : 0 < inp.sigma) (hN : 1 ≤ inp.N) :
    0 < dFac inp := by
have := one_lt_u inp hT hsig hN
have hu : 0 < u inp := lt_trans zero_lt_one this
exact div_pos zero_lt_one hu

lemma dFac_lt_u (hT : 0 < inp.T) (hsig : 0 < inp.sigma) (hN : 1 ≤ inp.N) :
    dFac inp < u inp := by
have h1 := one_lt_u inp hT hsig hN
have hu : 0 < u inp := lt_trans zero_lt_one h1
have hd : dFac inp < 1 := by
  rw [dFac, div_lt_one hu]; exact h1
exact lt_trans hd h1

/-- Martingale identity of the CRR tree: p u + q d = exp(r dt). -/
lemma pu_add_qd (hud : dFac inp < u inp) :
    p inp * u inp + q inp * dFac inp = Real.exp (inp.r * dt inp) := by
have hne : u inp - dFac inp ≠ 0 := ne_of_gt (sub_pos.mpr hud)
have hp : p inp * (u inp - dFac inp) =
    Real.exp (inp.r * dt inp) - dFac inp := by
  rw [p, div_mul_cancel₀ _ hne]
rw [q]
linear_combination hp

lemma disc_pos : 0 < disc inp := Real.exp_pos _

lemma disc_le_one (hT : 0 < inp.T) (hr : 0 ≤ inp.r) (hN : 1 ≤ inp.N) :
    disc inp ≤ 1 := by
have hdt : 0 ≤ dt inp := by
  have : (0 : ℝ) ≤ (inp.N : ℝ) := Nat.cast_nonneg _
  exact div_nonneg (le_of_lt hT) this
rw [disc, Real.exp_le_one_iff]
nlinarith

lemma disc_mul_exp : disc inp * Real.exp (inp.r * dt inp) = 1 := by
rw [disc, ← Real.exp_add]
rw [show -inp.r * dt inp + inp.r * dt inp = 0 by ring, Real.exp_zero]

lemma stock_up (i j : ℕ) :
    stock inp (i + 1) (j + 1) = stock inp i j * u inp := by
rw [stock, stock, Nat.succ_sub_succ]
ring

lemma stock_down (i j : ℕ) (hj : j ≤ i) :
    stock inp (i + 1) j = stock inp i j * dFac inp := by
rw [stock, stock, Nat.succ_sub hj, pow_succ]
ring

lemma stock_root : stock inp 0 0 = inp.S := by
simp [stock]

/-- At every node the European value is a lower bound for the American
value: the extra early-exercise max can only increase the value. -/
lemma euro_le_amer (pay : ℝ → ℝ) (hp0 : 0 ≤ p inp) (hp1 : p inp ≤ 1) :
    ∀ k j, euroVals inp pay k j ≤ amerVals inp pay k j := by
intro k
induction k with
| zero => intro j; exact le_of_eq rfl
| succ k ih =>
  intro j
  have hq0 : 0 ≤ q inp := by rw [q]; linarith
  have hd : (0 : ℝ) ≤ disc inp := le_of_lt (disc_pos inp)
  have hcont : p inp * euroVals inp pay k (j + 1) + q inp * euroVals inp pay k j ≤
      p inp * amerVals inp pay k (j + 1) + q inp * amerVals inp pay k j :=
    add_le_add (mul_le_mul_of_nonneg_left (ih (j + 1)) hp0)
      (mul_le_mul_of_nonneg_left (ih j) hq0)
  calc euroVals inp pay (k + 1) j
      = disc inp * (p inp * euroVals inp pay k (j + 1) +
          q inp * euroVals inp pay k j) := rfl
    _ ≤ disc inp * (p inp * amerVals inp pay k (j + 1) +
          q inp * amerVals inp pay k j) :=
        mul_le_mul_of_nonneg_left hcont hd
    _ ≤ amerVals inp pay (k + 1) j := le_max_left _ _

/-- Backward-induction invariant for European calls with a non-negative
rate: every node value dominates both zero and the forward intrinsic
value stock - K. -/
lemma euro_call_lb (hK : 0 < inp.K) (hT : 0 < inp.T) (hsig : 0 < inp.sigma)
    (hr : 0 ≤ inp.r) (hN : 1 ≤ inp.N) (hp0 : 0 ≤ p inp) (hp1 : p inp ≤ 1) :
    ∀ k, k ≤ inp.N → ∀ j, j ≤ inp.N - k →
      stock inp (inp.N - k) j - inp.K ≤ euroVals inp (callPayoff inp) k j ∧
      0 ≤ euroVals inp (callPayoff inp) k j := by
intro k
induction k with
| zero =>
  intro _ j _
  constructor
  · exact le_max_left _ _
  · exact le_max_right _ _
| succ k ih =>
  intro hk1 j hj
  have hud := dFac_lt_u inp hT hsig hN
  have hmart := pu_add_qd inp hud
  have hd0 : (0 : ℝ) ≤ disc inp := le_of_lt (disc_pos inp)
  have hd1 := disc_le_one inp hT hr hN
  have hdm := disc_mul_exp inp
  have hq0 : 0 ≤ q inp := by rw [q]; linarith
  have hNk : inp.N - k = (inp.N - (k + 1)) + 1 := by omega
  have ihA := ih (by omega) (j + 1) (by omega)
  have ihB := ih (by omega) j (by omega)
  rw [hNk] at ihA ihB
  rw [stock_up] at ihA
  rw [stock_down inp _ _ (by omega : j ≤ inp.N - (k + 1))] at ihB
  constructor
  · have h1 : p inp * (stock inp (inp.N - (k + 1)) j * u inp - inp.K) ≤
        p inp * euroVals inp (callPayoff inp) k (j + 1) :=
      mul_le_mul_of_nonneg_left ihA.1 hp0
    have h2 : q inp * (stock inp (inp.N - (k + 1)) j * dFac inp - inp.K) ≤
        q inp * euroVals inp (callPayoff inp) k j :=
      mul_le_mul_of_nonneg_left ihB.1 hq0
    have hmul : disc inp *
        (p inp * (stock inp (inp.N - (k + 1)) j * u inp - inp.K) +
          q inp * (stock inp (inp.N - (k + 1)) j * dFac inp - inp.K)) ≤
        disc inp * (p inp * euroVals inp (callPayoff inp) k (j + 1) +
          q inp * euroVals inp (callPayoff inp) k j) :=
      mul_le_mul_of_nonneg_left (add_le_add h1 h2) hd0
    have hq : q inp = 1 - p inp := rfl
    rw [hq] at hmart
    have hkey : disc inp *
        (p inp * (stock inp (inp.N - (k + 1)) j * u inp - inp.K) +
          (1 - p inp) * (stock inp (inp.N - (k + 1)) j * dFac inp - inp.K)) =
        stock inp (inp.N - (k + 1)) j - disc inp * inp.K := by
      linear_combination (disc inp * stock inp (inp.N - (k + 1)) j) * hmart +
        stock inp (inp.N - (k + 1)) j * hdm
    have hDK : disc inp * inp.K ≤ inp.K := by nlinarith
    rw [hq] at hmul
    calc stock inp (inp.N - (k + 1)) j - inp.K
        ≤ stock inp (inp.N - (k + 1)) j - disc inp * inp.K := by linarith
      _ = disc inp *
          (p inp * (stock inp (inp.N - (k + 1)) j * u inp - inp.K) +
            (1 - p inp) *
              (stock inp (inp.N - (k + 1)) j * dFac inp - inp.K)) := hkey.symm
      _ ≤ disc inp * (p inp * euroVals inp (callPayoff inp) k (j + 1) +
            (1 - p inp) * euroVals inp (callPayoff inp) k j) := hmul
      _ = euroVals inp (callPayoff inp) (k + 1) j := by rw [← hq]; exact rfl
  · have : (0 : ℝ) ≤ disc inp * (p inp * euroVals inp (callPayoff inp) k (j + 1) +
        q inp * euroVals inp (callPayoff inp) k j) :=
      mul_nonneg hd0 (add_nonneg (mul_nonneg hp0 ihA.2) (mul_nonneg hq0 ihB.2))
    exact this

/-- For calls (no dividends, non-negative rate) the early-exercise
comparison never binds: backward induction gives the European value at
every node. -/
lemma amer_call_eq (hK : 0 < inp.K) (hT : 0 < inp.T) (hsig : 0 < inp.sigma)
    (hr : 0 ≤ inp.r) (hN : 1 ≤ inp.N) (hp0 : 0 ≤ p inp) (hp1 : p inp ≤ 1) :
    ∀ k, k ≤ inp.N → ∀ j, j ≤ inp.N - k →
      amerVals inp (callPayoff inp) k j = euroVals inp (callPayoff inp) k j := by
intro k
induction k with
| zero => intro _ j _; rfl
| succ k ih =>
  intro hk1 j hj
  have hA := ih (by omega) (j + 1) (by omega)
  have hB := ih (by omega) j (by omega)
  have hlb := euro_call_lb inp hK hT hsig hr hN hp0 hp1 (k + 1) hk1 j hj
  have hcont : euroVals inp (callPayoff inp) (k + 1) j =
      disc inp * (p inp * euroVals inp (callPayoff inp) k (j + 1) +
        q inp * euroVals inp (callPayoff inp) k j) := rfl
  have hpay : callPayoff inp (stock inp (inp.N - (k + 1)) j) ≤
      euroVals inp (callPayoff inp) (k + 1) j :=
    max_le hlb.1 hlb.2
  calc amerVals inp (callPayoff inp) (k + 1) j
      = max (disc inp * (p inp * amerVals inp (callPayoff inp) k (j + 1) +
          q inp * amerVals inp (callPayoff inp) k j))
          (callPayoff inp (stock inp (inp.N - (k + 1)) j)) := rfl
    _ = max (euroVals inp (callPayoff inp) (k + 1) j)
          (callPayoff inp (stock inp (inp.N - (k + 1)) j)) := by
        rw [hA, hB, ← hcont]
    _ = euroVals inp (callPayoff inp) (k + 1) j := max_eq_left hpay

/-- The American put value at the root dominates the intrinsic value,
because the root itself carries the early-exercise comparison. -/
lemma amer_put_root_ge (hN : 1 ≤ inp.N) :
    putPayoff inp inp.S ≤ priceAmericanPut inp := by
obtain ⟨m, hm⟩ : ∃ m, inp.N = m + 1 := ⟨inp.N - 1, by omega⟩
have h0 : inp.N - (m + 1) = 0 := by omega
have hval : amerVals inp (putPayoff inp) (m + 1) 0 =
    max (disc inp * (p inp * amerVals inp (putPayoff inp) m 1 +
      q inp * amerVals inp (putPayoff inp) m 0))
      (putPayoff inp (stock inp (inp.N - (m + 1)) 0)) := rfl
rw [h0, stock_root] at hval
rw [priceAmericanPut, hm, hval]
exact le_max_right _ _
lemma foldl_min_le_init : ∀ (xs : List ℝ) (x : ℝ), xs.foldl min x ≤ x := by
intro xs
induction xs with
| nil => intro x; exact le_refl x
| cons a xs ih => intro x; exact le_trans (ih (min x a)) (min_le_left x a)

lemma foldl_min_le_mem : ∀ (xs : List ℝ) (x y : ℝ), y ∈ xs →
    xs.foldl min x ≤ y := by
intro xs
induction xs with
| nil => intro x y hy; exact absurd hy (List.not_mem_nil y)
| cons a xs ih =>
  intro x y hy
  rcases List.mem_cons.mp hy with rfl | hy
  · exact le_trans (foldl_min_le_init xs (min x y)) (min_le_right x y)
  · exact ih (min x a) y hy

lemma foldl_min_mem : ∀ (xs : List ℝ) (x : ℝ),
    xs.foldl min x = x ∨ xs.foldl min x ∈ xs := by
intro xs
induction xs with
| nil => intro x; exact Or.inl rfl
| cons a xs ih =>
  intro x
  rcases ih (min x a) with h | h
  · rcases min_choice x a with hm | hm
    · left; rw [List.foldl_cons, h, hm]
    · right; rw [List.foldl_cons, h, hm]; exact List.mem_cons_self a xs
  · right; exact List.mem_cons_of_mem a h

lemma foldl_max_init_le : ∀ (xs : List ℝ) (x : ℝ), x ≤ xs.foldl max x := by
intro xs
induction xs with
| nil => intro x; exact le_refl x
| cons a xs ih => intro x; exact le_trans (le_max_left x a) (ih (max x a))

lemma foldl_max_mem_le : ∀ (xs : List ℝ) (x y : ℝ), y ∈ xs →
    y ≤ xs.foldl max x := by
intro xs
induction xs with
| nil => intro x y hy; exact absurd hy (List.not_mem_nil y)
| cons a xs ih =>
  intro x y hy
  rcases List.mem_cons.mp hy with rfl | hy
  · exact le_trans (le_max_right x y) (foldl_max_init_le xs (max x y))
  · exact ih (max x a) y hy

lemma foldl_max_mem : ∀ (xs : List ℝ) (x : ℝ),
    xs.foldl max x = x ∨ xs.foldl max x ∈ xs := by
intro xs
induction xs with
| nil => intro x; exact Or.inl rfl
| cons a xs ih =>
  intro x
  rcases ih (max x a) with h | h
  · rcases max_choice x a with hm | hm
    · left; rw [List.foldl_cons, h, hm]
    · right; rw [List.foldl_cons, h, hm]; exact List.mem_cons_self a xs
  · right; exact List.mem_cons_of_mem a h

lemma listMin_eq_none_iff (l : List ℝ) : listMin l = none ↔ l = [] := by
cases l <;> simp [listMin]

lemma listMax_eq_none_iff (l : List ℝ) : listMax l = none ↔ l = [] := by
cases l <;> simp [listMax]

lemma listMin_eq_some (l : List ℝ) (b : ℝ) (h : listMin l = some b) :
    b ∈ l ∧ ∀ y ∈ l, b ≤ y := by
cases l with
| nil => exact absurd h (by simp [listMin])
| cons x xs =>
  have hb : xs.foldl min x = b := by
    have := h
    unfold listMin at this
    exact Option.some.inj this
  constructor
  · rcases foldl_min_mem xs x with h1 | h1
    · rw [← hb, h1]; exact List.mem_cons_self x xs
    · rw [← hb]; exact List.mem_cons_of_mem x h1
  · intro y hy
    rcases List.mem_cons.mp hy with rfl | hy
    · rw [← hb]; exact foldl_min_le_init xs y
    · rw [← hb]; exact foldl_min_le_mem xs x y hy

lemma listMax_eq_some (l : List ℝ) (b : ℝ) (h : listMax l = some b) :
    b ∈ l ∧ ∀ y ∈ l, y ≤ b := by
cases l with
| nil => exact absurd h (by simp [listMax])
| cons x xs =>
  have hb : xs.foldl max x = b := by
    have := h
    unfold listMax at this
    exact Option.some.inj this
  constructor
  · rcases foldl_max_mem xs x with h1 | h1
    · rw [← hb, h1]; exact List.mem_cons_self x xs
    · rw [← hb]; exact List.mem_cons_of_mem x h1
  · intro y hy
    rcases List.mem_cons.mp hy with rfl | hy
    · rw [← hb]; exact foldl_max_init_le xs y
    · rw [← hb]; exact foldl_max_mem_le xs x y hy
lemma exercisePrices_eq_nil_iff (pay : ℝ → ℝ) (i : ℕ) :
    exercisePrices inp pay i = [] ↔
      ∀ j, j ≤ i → ¬exerciseOptimalAt inp pay i j := by
unfold exercisePrices
rw [List.map_eq_nil_iff]
rw [List.filter_eq_nil_iff]
constructor
· intro h j hj
  have := h j (List.mem_range.mpr (Nat.lt_succ_of_le hj))
  simpa using this
· intro h j hj
  have := h j (Nat.lt_succ_iff.mp (List.mem_range.mp hj))
  simpa using this

lemma mem_exercisePrices (pay : ℝ → ℝ) (i : ℕ) (y : ℝ) :
    y ∈ exercisePrices inp pay i ↔
      ∃ j, j ≤ i ∧ exerciseOptimalAt inp pay i j ∧ stock inp i j = y := by
unfold exercisePrices
rw [List.mem_map]
constructor
· rintro ⟨j, hj, rfl⟩
  have hj' := List.mem_filter.mp hj
  refine ⟨j, Nat.lt_succ_iff.mp (List.mem_range.mp hj'.1), ?_, rfl⟩
  simpa using hj'.2
· rintro ⟨j, hj, hopt, rfl⟩
  refine ⟨j, List.mem_filter.mpr ⟨List.mem_range.mpr (Nat.lt_succ_of_le hj),
    ?_⟩, rfl⟩
  simpa using hopt


end BinomialTree

namespace MonteCarlo

variable (inp : Inputs)

lemma path_eq_terminal (nSteps : ℕ) (g : ℕ → ℝ) (off i : ℕ) :
    ∀ t, path inp nSteps g off i t =
      inp.S * Real.exp (∑ j in Finset.range t, logret inp nSteps g off i j) := by
intro t
induction t with
| zero => simp [path]
| succ t ih =>
  rw [show path inp nSteps g off i (t + 1) =
      path inp nSteps g off i t * Real.exp (logret inp nSteps g off i t)
    from rfl]
  rw [ih, Finset.sum_range_succ, Real.exp_add]
  ring

lemma mcMean_congr (n : ℕ) (v w : ℕ → ℝ) (h : ∀ i, i < n → v i = w i) :
    mcMean n v = mcMean n w := by
unfold mcMean
congr 1
exact Finset.sum_congr rfl fun i hi => h i (Finset.mem_range.mp hi)

lemma mcStd_congr (n : ℕ) (v w : ℕ → ℝ) (h : ∀ i, i < n → v i = w i) :
    mcStd n v = mcStd n w := by
unfold mcStd
rw [mcMean_congr n v w h]
congr 1
exact mcMean_congr n _ _ fun i hi => by rw [h i hi]

lemma mcMean_add (n : ℕ) (v w : ℕ → ℝ) :
    mcMean n (fun i => v i + w i) = mcMean n v + mcMean n w := by
unfold mcMean
rw [Finset.sum_add_distrib, add_div]

lemma mcMean_zero (n : ℕ) (v : ℕ → ℝ) (h : ∀ i, i < n → v i = 0) :
    mcMean n v = 0 := by
rw [mcMean_congr n v (fun _ => 0) h]
unfold mcMean
simp

lemma mcStd_zero (n : ℕ) (v : ℕ → ℝ) (h : ∀ i, i < n → v i = 0) :
    mcStd n v = 0 := by
unfold mcStd
rw [mcMean_zero n v h]
rw [mcMean_zero n _ (fun i hi => by rw [h i hi]; ring)]
exact Real.sqrt_zero

lemma priceEuropean_eq (ot : OptKind) (nSims nSteps : ℕ) (g : ℕ → ℝ)
    (off : ℕ) :
    priceEuropean inp ot nSims nSteps g off =
      (mcMean nSims (discEuroPayoff inp ot nSteps g off),
       mcStd nSims (discEuroPayoff inp ot nSteps g off) / Real.sqrt nSims) := by
cases ot <;> rfl

lemma disc_vanilla_eq (ot : OptKind) (nSteps : ℕ) (g : ℕ → ℝ) (off i : ℕ) :
    Real.exp (-inp.r * inp.T) *
      vanillaPayoff ot inp.K (path inp nSteps g off i nSteps) =
      discEuroPayoff inp ot nSteps g off i := by
cases ot with
| call =>
  show Real.exp (-inp.r * inp.T) *
      max (path inp nSteps g off i nSteps - inp.K) 0 =
      discCallPayoff inp nSteps g off i
  rw [path_eq_terminal]
  rfl
| put =>
  show Real.exp (-inp.r * inp.T) *
      max (inp.K - path inp nSteps g off i nSteps) 0 =
      discPutPayoff inp nSteps g off i
  rw [path_eq_terminal]
  rfl

end MonteCarlo

/-- C1 (amended): for all valid parameters S, K, T, sigma positive,
step count N at least 1 accepted at construction (risk-neutral
probability p in the unit interval) and non-negative rate r, the
binomial-tree prices satisfy: American put at least European put,
American put at least the intrinsic value max(K - S, 0), and American
call exactly equal to European call. (The original claim's bound
European put at least intrinsic value fails for positive rates; see the
counterexample.) -/
theorem c1_early_exercise_ordering_amended (inp : BinomialTree.Inputs)
    (hS : 0 < inp.S) (hK : 0 < inp.K) (hT : 0 < inp.T) (hsig : 0 < inp.sigma)
    (hr : 0 ≤ inp.r) (hN : 1 ≤ inp.N)
    (hp0 : 0 ≤ BinomialTree.p inp) (hp1 : BinomialTree.p inp ≤ 1) :
    BinomialTree.priceEuropeanPut inp ≤ BinomialTree.priceAmericanPut inp ∧
    max (inp.K - inp.S) 0 ≤ BinomialTree.priceAmericanPut inp ∧
    BinomialTree.priceAmericanCall inp = BinomialTree.priceEuropeanCall inp := by
refine ⟨?_, ?_, ?_⟩
· exact BinomialTree.euro_le_amer inp _ hp0 hp1 inp.N 0
· exact BinomialTree.amer_put_root_ge inp hN
· exact BinomialTree.amer_call_eq inp hK hT hsig hr hN hp0 hp1 inp.N
    (le_refl _) 0 (by omega)

/-- C1 (counterexample): at S = 1, K = 100, T = 1, r = 1, sigma = 1,
N = 1 the construction is accepted (p lies in the unit interval, in fact
p = 1) yet the European put price 100 / e - 1 is strictly below the
intrinsic value max(K - S, 0) = 99, refuting the claimed bound
European put at least intrinsic for arbitrary rates. -/
theorem c1_counterexample :
    (0 ≤ BinomialTree.p ⟨1, 100, 1, 1, 1, 1⟩ ∧
      BinomialTree.p ⟨1, 100, 1, 1, 1, 1⟩ ≤ 1) ∧
    BinomialTree.priceEuropeanPut ⟨1, 100, 1, 1, 1, 1⟩ <
      max ((100 : ℝ) - 1) 0 := by
have he1 : (1 : ℝ) < Real.exp 1 := by
  have h := Real.add_one_lt_exp (x := 1) one_ne_zero
  linarith
have hepos : (0 : ℝ) < Real.exp 1 := Real.exp_pos 1
have hinv1 : (Real.exp 1)⁻¹ < 1 := by
  rw [inv_lt_one_iff₀]
  right; exact he1
have hinvpos : (0 : ℝ) < (Real.exp 1)⁻¹ := inv_pos.mpr hepos
have he100 : Real.exp 1 < 100 := by
  have := Real.exp_one_lt_d9
  linarith
have hdt : BinomialTree.dt ⟨1, 100, 1, 1, 1, 1⟩ = 1 := by
  unfold BinomialTree.dt
  norm_num
have hu : BinomialTree.u ⟨1, 100, 1, 1, 1, 1⟩ = Real.exp 1 := by
  unfold BinomialTree.u
  rw [hdt]
  norm_num
have hd : BinomialTree.dFac ⟨1, 100, 1, 1, 1, 1⟩ = (Real.exp 1)⁻¹ := by
  unfold BinomialTree.dFac
  rw [hu, one_div]
have hne : Real.exp 1 - (Real.exp 1)⁻¹ ≠ 0 :=
  ne_of_gt (sub_pos.mpr (lt_trans hinv1 he1))
have hp : BinomialTree.p ⟨1, 100, 1, 1, 1, 1⟩ = 1 := by
  unfold BinomialTree.p
  rw [hu, hd, hdt]
  rw [show ((⟨1, 100, 1, 1, 1, 1⟩ : BinomialTree.Inputs).r * 1 : ℝ) = 1 by
    norm_num]
  exact div_self hne
have hq : BinomialTree.q ⟨1, 100, 1, 1, 1, 1⟩ = 0 := by
  unfold BinomialTree.q
  rw [hp]; ring
have hdisc : BinomialTree.disc ⟨1, 100, 1, 1, 1, 1⟩ = (Real.exp 1)⁻¹ := by
  unfold BinomialTree.disc
  rw [hdt]
  rw [show (-(⟨1, 100, 1, 1, 1, 1⟩ : BinomialTree.Inputs).r * 1 : ℝ) = -1 by
    norm_num]
  exact Real.exp_neg 1
have hs11 : BinomialTree.stock ⟨1, 100, 1, 1, 1, 1⟩ 1 1 = Real.exp 1 := by
  unfold BinomialTree.stock
  rw [hu]
  norm_num
refine ⟨⟨by rw [hp]; norm_num, by rw [hp]⟩, ?_⟩
have hprice : BinomialTree.priceEuropeanPut ⟨1, 100, 1, 1, 1, 1⟩ =
    BinomialTree.disc ⟨1, 100, 1, 1, 1, 1⟩ *
      (BinomialTree.p ⟨1, 100, 1, 1, 1, 1⟩ *
        BinomialTree.putPayoff ⟨1, 100, 1, 1, 1, 1⟩
          (BinomialTree.stock ⟨1, 100, 1, 1, 1, 1⟩ 1 1) +
        BinomialTree.q ⟨1, 100, 1, 1, 1, 1⟩ *
          BinomialTree.putPayoff ⟨1, 100, 1, 1, 1, 1⟩
            (BinomialTree.stock ⟨1, 100, 1, 1, 1, 1⟩ 1 0)) := rfl
have hpay1 : BinomialTree.putPayoff ⟨1, 100, 1, 1, 1, 1⟩
    (BinomialTree.stock ⟨1, 100, 1, 1, 1, 1⟩ 1 1) = 100 - Real.exp 1 := by
  unfold BinomialTree.putPayoff
  rw [hs11]
  rw [show (⟨1, 100, 1, 1, 1, 1⟩ : BinomialTree.Inputs).K = (100 : ℝ) from rfl]
  exact max_eq_left (by linarith)
rw [hprice, hpay1, hp, hq, hdisc]
rw [max_eq_left (by norm_num : (0 : ℝ) ≤ 100 - 1)]
have hexpand : (Real.exp 1)⁻¹ * (1 * (100 - Real.exp 1) +
    0 * BinomialTree.putPayoff ⟨1, 100, 1, 1, 1, 1⟩
      (BinomialTree.stock ⟨1, 100, 1, 1, 1, 1⟩ 1 0)) =
    100 * (Real.exp 1)⁻¹ - 1 := by
  field_simp
nlinarith [hexpand, hinv1]

/-- Witness for the amended C1 at S = 1, K = 1, T = 1, r = 0, sigma = 1,
N = 1, where p = (1 - 1/e) / (e - 1/e) lies in the unit interval. -/
theorem c1_early_exercise_ordering_witness :
    BinomialTree.priceEuropeanPut ⟨1, 1, 1, 0, 1, 1⟩ ≤
      BinomialTree.priceAmericanPut ⟨1, 1, 1, 0, 1, 1⟩ ∧
    max ((1 : ℝ) - 1) 0 ≤ BinomialTree.priceAmericanPut ⟨1, 1, 1, 0, 1, 1⟩ ∧
    BinomialTree.priceAmericanCall ⟨1, 1, 1, 0, 1, 1⟩ =
      BinomialTree.priceEuropeanCall ⟨1, 1, 1, 0, 1, 1⟩ := by
have he1 : (1 : ℝ) < Real.exp 1 := by
  have h := Real.add_one_lt_exp (x := 1) one_ne_zero
  linarith
have hepos : (0 : ℝ) < Real.exp 1 := Real.exp_pos 1
have hinv1 : (Real.exp 1)⁻¹ < 1 := by
  rw [inv_lt_one_iff₀]
  right; exact he1
have hinvpos : (0 : ℝ) < (Real.exp 1)⁻¹ := inv_pos.mpr hepos
have hdt : BinomialTree.dt ⟨1, 1, 1, 0, 1, 1⟩ = 1 := by
  unfold BinomialTree.dt
  norm_num
have hu : BinomialTree.u ⟨1, 1, 1, 0, 1, 1⟩ = Real.exp 1 := by
  unfold BinomialTree.u
  rw [hdt]
  norm_num
have hd : BinomialTree.dFac ⟨1, 1, 1, 0, 1, 1⟩ = (Real.exp 1)⁻¹ := by
  unfold BinomialTree.dFac
  rw [hu, one_div]
have hp : BinomialTree.p ⟨1, 1, 1, 0, 1, 1⟩ =
    (1 - (Real.exp 1)⁻¹) / (Real.exp 1 - (Real.exp 1)⁻¹) := by
  unfold BinomialTree.p
  rw [hu, hd, hdt]
  rw [show ((⟨1, 1, 1, 0, 1, 1⟩ : BinomialTree.Inputs).r * 1 : ℝ) = 0 by
    norm_num]
  rw [Real.exp_zero]
have hden : (0 : ℝ) < Real.exp 1 - (Real.exp 1)⁻¹ :=
  sub_pos.mpr (lt_trans hinv1 he1)
have hp0 : 0 ≤ BinomialTree.p ⟨1, 1, 1, 0, 1, 1⟩ := by
  rw [hp]
  exact div_nonneg (by linarith) (le_of_lt hden)
have hp1 : BinomialTree.p ⟨1, 1, 1, 0, 1, 1⟩ ≤ 1 := by
  rw [hp, div_le_one hden]
  linarith
exact c1_early_exercise_ordering_amended ⟨1, 1, 1, 0, 1, 1⟩
  (show (0 : ℝ) < 1 by norm_num) (show (0 : ℝ) < 1 by norm_num)
  (show (0 : ℝ) < 1 by norm_num) (show (0 : ℝ) < 1 by norm_num)
  (show (0 : ℝ) ≤ 0 from le_refl 0) (le_refl 1) hp0 hp1

/-- C2: for every successfully constructed BlackScholes instance
(S, K, T, sigma positive, any rate r), call_price minus put_price equals
S - K exp(-rT) exactly in real arithmetic (hence within the 1e-9
tolerance the spec allows). -/
theorem c2_put_call_parity (S K T r sigma : ℝ)
    (hS : 0 < S) (hK : 0 < K) (hT : 0 < T) (hsig : 0 < sigma) :
    BlackScholes.callPrice S K T r sigma -
      BlackScholes.putPrice S K T r sigma = S - K * Real.exp (-r * T) := by
have h1 := BlackScholes.normCdf_add_neg (BlackScholes.d1 S K T r sigma)
have h2 := BlackScholes.normCdf_add_neg (BlackScholes.d2 S K T r sigma)
unfold BlackScholes.callPrice BlackScholes.putPrice
linear_combination S * h1 - K * Real.exp (-r * T) * h2

/-- Witness for C2 at S = 150, K = 155, T = 1/4, r = 1/20, sigma = 3/10. -/
theorem c2_put_call_parity_witness :
    BlackScholes.callPrice 150 155 (1 / 4) (1 / 20) (3 / 10) -
      BlackScholes.putPrice 150 155 (1 / 4) (1 / 20) (3 / 10) =
      150 - 155 * Real.exp (-(1 / 20) * (1 / 4)) :=
c2_put_call_parity 150 155 (1 / 4) (1 / 20) (3 / 10)
  (by norm_num) (by norm_num) (by norm_num) (by norm_num)

/-- C3: whenever the Newton search raises (diverges or fails to
converge) or returns an implausible volatility outside [0.01, 5.0], the
solver returns the Brent search result on the same market price instead
of propagating the failure, for both the call and the put variant; a
failure reaches the caller only when Brent itself fails. -/
theorem c3_newton_fallback (brent : ℝ → Except PriceErr ℝ)
    (newton : ℕ → ℝ → Except Unit ℝ) (mp : ℝ)
    (hc : newton 0 mp = Except.error () ∨
      ∃ iv, newton 0 mp = Except.ok iv ∧ (iv < 0.01 ∨ 5 < iv))
    (hp : newton 1 mp = Except.error () ∨
      ∃ iv, newton 1 mp = Except.ok iv ∧ (iv < 0.01 ∨ 5 < iv)) :
    ImpliedVolatilitySolver.solveNewtonCall brent (newton 0) mp = brent mp ∧
    ImpliedVolatilitySolver.solveNewtonPut brent (newton 1) mp = brent mp ∧
    (∀ e, ImpliedVolatilitySolver.solveNewtonCall brent (newton 0) mp =
      Except.error e → brent mp = Except.error e) := by
have hcall : ImpliedVolatilitySolver.solveNewtonCall brent (newton 0) mp =
    brent mp := by
  unfold ImpliedVolatilitySolver.solveNewtonCall
  rcases hc with h | ⟨iv, hiv, hbad⟩
  · rw [h]
  · rw [hiv]
    simp only [if_pos hbad]
have hput : ImpliedVolatilitySolver.solveNewtonPut brent (newton 1) mp =
    brent mp := by
  unfold ImpliedVolatilitySolver.solveNewtonPut
  rcases hp with h | ⟨iv, hiv, hbad⟩
  · rw [h]
  · rw [hiv]
    simp only [if_pos hbad]
exact ⟨hcall, hput, fun e he => by rw [← hcall]; exact he⟩

/-- Witness for C3: a Newton search that diverges for the call and
returns the implausible value 6 for the put, with Brent returning
volatility 1/4; the solver returns 1/4 in both cases. -/
theorem c3_newton_fallback_witness :
    ImpliedVolatilitySolver.solveNewtonCall (fun _ => Except.ok (1 / 4 : ℝ))
      (fun _ => Except.error ()) 2 = Except.ok (1 / 4 : ℝ) ∧
    ImpliedVolatilitySolver.solveNewtonPut (fun _ => Except.ok (1 / 4 : ℝ))
      (fun _ => Except.ok (6 : ℝ)) 2 = Except.ok (1 / 4 : ℝ) := by
have h := c3_newton_fallback (fun _ => Except.ok (1 / 4 : ℝ))
  (fun n => if n = 0 then (fun _ => Except.error ())
    else (fun _ => Except.ok (6 : ℝ))) 2
  (Or.inl rfl) (Or.inr ⟨6, rfl, Or.inr (by norm_num)⟩)
exact ⟨h.1, h.2.1⟩

/-- C4: the solvers raise an ArbitrageViolationError independently of
the search method exactly when the market price is strictly below the
intrinsic value or strictly above the theoretical maximum (S for calls,
K exp(-rT) for puts); prices equal to either bound are accepted, and
then the search runs and its result is returned unchanged. -/
theorem c4_arbitrage_bounds (S K T r mp : ℝ) :
    ((mp < max (S - K) 0 ∨ S < mp) →
      ∀ search, ImpliedVolatilitySolver.solveIvCall S K search mp =
        Except.error PriceErr.arbitrageViolation) ∧
    (max (S - K) 0 ≤ mp → mp ≤ S →
      ∀ search, ImpliedVolatilitySolver.solveIvCall S K search mp =
        search mp) ∧
    ((mp < max (K - S) 0 ∨ K * Real.exp (-r * T) < mp) →
      ∀ search, ImpliedVolatilitySolver.solveIvPut S K T r search mp =
        Except.error PriceErr.arbitrageViolation) ∧
    (max (K - S) 0 ≤ mp → mp ≤ K * Real.exp (-r * T) →
      ∀ search, ImpliedVolatilitySolver.solveIvPut S K T r search mp =
        search mp) := by
refine ⟨?_, ?_, ?_, ?_⟩
· intro h search
  unfold ImpliedVolatilitySolver.solveIvCall
  rcases h with h | h
  · rw [if_pos h]
  · by_cases h1 : mp < max (S - K) 0
    · rw [if_pos h1]
    · rw [if_neg h1, if_pos h]
· intro h1 h2 search
  unfold ImpliedVolatilitySolver.solveIvCall
  rw [if_neg (not_lt.mpr h1), if_neg (not_lt.mpr h2)]
· intro h search
  unfold ImpliedVolatilitySolver.solveIvPut
  rcases h with h | h
  · rw [if_pos h]
  · by_cases h1 : mp < max (K - S) 0
    · rw [if_pos h1]
    · rw [if_neg h1, if_pos h]
· intro h1 h2 search
  unfold ImpliedVolatilitySolver.solveIvPut
  rw [if_neg (not_lt.mpr h1), if_neg (not_lt.mpr h2)]

/-- Witness for C4: a call quoted above the stock price is rejected
before any search, and a put quoted exactly at its intrinsic bound is
accepted and handed to the search. -/
theorem c4_arbitrage_bounds_witness :
    ImpliedVolatilitySolver.solveIvCall 1 1 (fun _ => Except.ok (1 : ℝ)) 2 =
      Except.error PriceErr.arbitrageViolation ∧
    ImpliedVolatilitySolver.solveIvPut 1 1 1 0 (fun _ => Except.ok (1 : ℝ)) 0 =
      Except.ok (1 : ℝ) := by
constructor
· exact (c4_arbitrage_bounds 1 1 1 0 2).1 (Or.inr (by norm_num)) _
· refine (c4_arbitrage_bounds 1 1 1 0 0).2.2.2 (by norm_num) ?_ _
  rw [show (-(0 : ℝ) * 1) = 0 by ring, Real.exp_zero]
  norm_num

/-- C7 (amended): the BlackScholes constructor rejects exactly the
non-positive values of S, K, T or sigma with a ValidationError, but the
MonteCarlo constructor performs no validation at all and accepts every
input, including non-positive ones. -/
theorem c7_construction_validation_amended :
    (∀ S K T r sigma : ℝ,
      (∃ b, BlackScholes.init S K T r sigma = Except.ok b) ↔
        (0 < S ∧ 0 < K ∧ 0 < T ∧ 0 < sigma)) ∧
    (∀ S K T r sigma : ℝ,
      MonteCarlo.init S K T r sigma = Except.ok ⟨S, K, T, r, sigma⟩) := by
constructor
· intro S K T r sigma
  unfold BlackScholes.init
  constructor
  · rintro ⟨b, hb⟩
    by_cases hS : S ≤ 0
    · rw [if_pos hS] at hb; exact absurd hb (by simp)
    rw [if_neg hS] at hb
    by_cases hK : K ≤ 0
    · rw [if_pos hK] at hb; exact absurd hb (by simp)
    rw [if_neg hK] at hb
    by_cases hT : T ≤ 0
    · rw [if_pos hT] at hb; exact absurd hb (by simp)
    rw [if_neg hT] at hb
    by_cases hsig : sigma ≤ 0
    · rw [if_pos hsig] at hb; exact absurd hb (by simp)
    exact ⟨not_le.mp hS, not_le.mp hK, not_le.mp hT, not_le.mp hsig⟩
  · rintro ⟨hS, hK, hT, hsig⟩
    rw [if_neg (not_le.mpr hS), if_neg (not_le.mpr hK),
      if_neg (not_le.mpr hT), if_neg (not_le.mpr hsig)]
    exact ⟨_, rfl⟩
· intro S K T r sigma
  rfl

/-- C7 (counterexample): constructing the Monte Carlo pricer with the
non-positive spot S = -1 succeeds instead of failing with a
ValidationError. -/
theorem c7_counterexample :
    MonteCarlo.init (-1) 1 1 0 1 = Except.ok ⟨-1, 1, 1, 0, 1⟩ ∧
    (-1 : ℝ) ≤ 0 :=
⟨rfl, by norm_num⟩

/-- C9: for matching option kind, barrier direction and level, and on
the same simulated paths (same draw stream and offset), the knock-in
and knock-out activity conditions are exact complements, so the
knock-in price plus the knock-out price equals the vanilla European
price computed from those same draws, exactly. -/
theorem c9_barrier_decomposition (inp : MonteCarlo.Inputs) (ot : OptKind)
    (dm : MonteCarlo.BarrierDir) (level : ℝ) (nSims nSteps : ℕ)
    (g : ℕ → ℝ) (off : ℕ) (hn : 0 < nSims) :
    (MonteCarlo.priceBarrierOption inp ot (MonteCarlo.inKind dm) level
        nSims nSteps g off).1 +
      (MonteCarlo.priceBarrierOption inp ot (MonteCarlo.outKind dm) level
        nSims nSteps g off).1 =
      (MonteCarlo.priceEuropean inp ot nSims nSteps g off).1 := by
have hpt : ∀ i,
    MonteCarlo.discBarrierPayoff inp ot (MonteCarlo.inKind dm) level nSteps
        g off i +
      MonteCarlo.discBarrierPayoff inp ot (MonteCarlo.outKind dm) level
        nSteps g off i =
      MonteCarlo.discEuroPayoff inp ot nSteps g off i := by
  intro i
  rw [← MonteCarlo.disc_vanilla_eq]
  cases dm with
  | up =>
    by_cases hh : MonteCarlo.hitUp inp nSteps g off i level
    · simp only [MonteCarlo.discBarrierPayoff, MonteCarlo.inKind,
        MonteCarlo.outKind, MonteCarlo.active, hh, not_true_eq_false,
        if_true, if_false]
      ring
    · simp only [MonteCarlo.discBarrierPayoff, MonteCarlo.inKind,
        MonteCarlo.outKind, MonteCarlo.active, hh, not_false_eq_true,
        if_true, if_false]
      ring
  | down =>
    by_cases hh : MonteCarlo.hitDown inp nSteps g off i level
    · simp only [MonteCarlo.discBarrierPayoff, MonteCarlo.inKind,
        MonteCarlo.outKind, MonteCarlo.active, hh, not_true_eq_false,
        if_true, if_false]
      ring
    · simp only [MonteCarlo.discBarrierPayoff, MonteCarlo.inKind,
        MonteCarlo.outKind, MonteCarlo.active, hh, not_false_eq_true,
        if_true, if_false]
      ring
rw [MonteCarlo.priceEuropean_eq]
show MonteCarlo.mcMean nSims _ + MonteCarlo.mcMean nSims _ =
  MonteCarlo.mcMean nSims _
rw [← MonteCarlo.mcMean_add]
exact MonteCarlo.mcMean_congr _ _ _ fun i _ => hpt i

/-- Witness for C9 at S = K = T = sigma = 1, r = 0, an up barrier at
level 2, one path and one step, with all draws zero. -/
theorem c9_barrier_decomposition_witness :
    (MonteCarlo.priceBarrierOption ⟨1, 1, 1, 0, 1⟩ OptKind.call
        (MonteCarlo.inKind MonteCarlo.BarrierDir.up) 2 1 1 (fun _ => 0) 0).1 +
      (MonteCarlo.priceBarrierOption ⟨1, 1, 1, 0, 1⟩ OptKind.call
        (MonteCarlo.outKind MonteCarlo.BarrierDir.up) 2 1 1 (fun _ => 0) 0).1 =
      (MonteCarlo.priceEuropean ⟨1, 1, 1, 0, 1⟩ OptKind.call 1 1
        (fun _ => 0) 0).1 :=
c9_barrier_decomposition ⟨1, 1, 1, 0, 1⟩ OptKind.call
  MonteCarlo.BarrierDir.up 2 1 1 (fun _ => 0) 0 (by decide)

/-- C10: the barrier scan includes the initial spot (paths[:,0] = S),
so an up-and-out option with barrier at or below the spot returns
exactly (0, 0), an up-and-in one degenerates to the vanilla European
result on the same draws, and dually for the down kinds when the
barrier is at or above the spot. -/
theorem c10_barrier_spot_inclusion (inp : MonteCarlo.Inputs) (ot : OptKind)
    (level : ℝ) (nSims nSteps : ℕ) (g : ℕ → ℝ) (off : ℕ) :
    (level ≤ inp.S →
      MonteCarlo.priceBarrierOption inp ot MonteCarlo.BarrierKind.upOut
          level nSims nSteps g off = (0, 0) ∧
      MonteCarlo.priceBarrierOption inp ot MonteCarlo.BarrierKind.upIn
          level nSims nSteps g off =
        MonteCarlo.priceEuropean inp ot nSims nSteps g off) ∧
    (inp.S ≤ level →
      MonteCarlo.priceBarrierOption inp ot MonteCarlo.BarrierKind.downOut
          level nSims nSteps g off = (0, 0) ∧
      MonteCarlo.priceBarrierOption inp ot MonteCarlo.BarrierKind.downIn
          level nSims nSteps g off =
        MonteCarlo.priceEuropean inp ot nSims nSteps g off) := by
constructor
· intro hlev
  have hhit : ∀ i, MonteCarlo.hitUp inp nSteps g off i level :=
    fun i => ⟨0, Nat.zero_le _, hlev⟩
  constructor
  · have hz : ∀ i, i < nSims →
        MonteCarlo.discBarrierPayoff inp ot MonteCarlo.BarrierKind.upOut
          level nSteps g off i = 0 := by
      intro i _
      simp only [MonteCarlo.discBarrierPayoff, MonteCarlo.active, hhit i,
        not_true_eq_false, if_false, mul_zero]
    refine Prod.ext ?_ ?_
    · exact MonteCarlo.mcMean_zero _ _ hz
    · show MonteCarlo.mcStd nSims _ / Real.sqrt nSims = 0
      rw [MonteCarlo.mcStd_zero _ _ hz, zero_div]
  · have he : ∀ i, i < nSims →
        MonteCarlo.discBarrierPayoff inp ot MonteCarlo.BarrierKind.upIn
          level nSteps g off i =
        MonteCarlo.discEuroPayoff inp ot nSteps g off i := by
      intro i _
      rw [← MonteCarlo.disc_vanilla_eq]
      simp only [MonteCarlo.discBarrierPayoff, MonteCarlo.active, hhit i,
        if_true]
    rw [MonteCarlo.priceEuropean_eq]
    refine Prod.ext ?_ ?_
    · exact MonteCarlo.mcMean_congr _ _ _ he
    · show MonteCarlo.mcStd nSims _ / Real.sqrt nSims =
        MonteCarlo.mcStd nSims _ / Real.sqrt nSims
      rw [MonteCarlo.mcStd_congr _ _ _ he]
· intro hlev
  have hhit : ∀ i, MonteCarlo.hitDown inp nSteps g off i level :=
    fun i => ⟨0, Nat.zero_le _, hlev⟩
  constructor
  · have hz : ∀ i, i < nSims →
        MonteCarlo.discBarrierPayoff inp ot MonteCarlo.BarrierKind.downOut
          level nSteps g off i = 0 := by
      intro i _
      simp only [MonteCarlo.discBarrierPayoff, MonteCarlo.active, hhit i,
        not_true_eq_false, if_false, mul_zero]
    refine Prod.ext ?_ ?_
    · exact MonteCarlo.mcMean_zero _ _ hz
    · show MonteCarlo.mcStd nSims _ / Real.sqrt nSims = 0
      rw [MonteCarlo.mcStd_zero _ _ hz, zero_div]
  · have he : ∀ i, i < nSims →
        MonteCarlo.discBarrierPayoff inp ot MonteCarlo.BarrierKind.downIn
          level nSteps g off i =
        MonteCarlo.discEuroPayoff inp ot nSteps g off i := by
      intro i _
      rw [← MonteCarlo.disc_vanilla_eq]
      simp only [MonteCarlo.discBarrierPayoff, MonteCarlo.active, hhit i,
        if_true]
    rw [MonteCarlo.priceEuropean_eq]
    refine Prod.ext ?_ ?_
    · exact MonteCarlo.mcMean_congr _ _ _ he
    · show MonteCarlo.mcStd nSims _ / Real.sqrt nSims =
        MonteCarlo.mcStd nSims _ / Real.sqrt nSims
      rw [MonteCarlo.mcStd_congr _ _ _ he]

/-- Witness for C10 with the barrier exactly at the spot (level = S = 1),
so both the up and the down degeneracies apply simultaneously. -/
theorem c10_barrier_spot_inclusion_witness :
    MonteCarlo.priceBarrierOption ⟨1, 1, 1, 0, 1⟩ OptKind.call
        MonteCarlo.BarrierKind.upOut 1 1 1 (fun _ => 0) 0 = (0, 0) ∧
    MonteCarlo.priceBarrierOption ⟨1, 1, 1, 0, 1⟩ OptKind.call
        MonteCarlo.BarrierKind.downIn 1 1 1 (fun _ => 0) 0 =
      MonteCarlo.priceEuropean ⟨1, 1, 1, 0, 1⟩ OptKind.call 1 1
        (fun _ => 0) 0 := by
have h := c10_barrier_spot_inclusion ⟨1, 1, 1, 0, 1⟩ OptKind.call 1 1 1
  (fun _ => 0) 0
exact ⟨(h.1 (le_refl 1)).1, (h.2 (le_refl 1)).2⟩

/-- C5 (amended): the pricing computation consumes exactly the
nSims-by-nSteps block of draws starting at the hidden global offset;
two calls whose draw streams agree on the consumed window return
identical (price, standard error) pairs, for both European pricers.
The constructor and pricing methods expose no seed or generator
parameter, so this determinism is over the modelled hidden state, not
over a caller-supplied seed. -/
theorem c5_determinism_amended (inp : MonteCarlo.Inputs) (nSims nSteps : ℕ)
    (g g' : ℕ → ℝ) (off off' : ℕ)
    (h : ∀ i j, i < nSims → j < nSteps →
      g (off + i * nSteps + j) = g' (off' + i * nSteps + j)) :
    MonteCarlo.priceEuropeanCall inp nSims nSteps g off =
      MonteCarlo.priceEuropeanCall inp nSims nSteps g' off' ∧
    MonteCarlo.priceEuropeanPut inp nSims nSteps g off =
      MonteCarlo.priceEuropeanPut inp nSims nSteps g' off' := by
have hterm : ∀ i, i < nSims →
    MonteCarlo.terminalPrice inp nSteps g off i =
      MonteCarlo.terminalPrice inp nSteps g' off' i := by
  intro i hi
  unfold MonteCarlo.terminalPrice
  congr 2
  refine Finset.sum_congr rfl fun j hj => ?_
  unfold MonteCarlo.logret MonteCarlo.zdraw
  rw [h i j hi (Finset.mem_range.mp hj)]
have hc : ∀ i, i < nSims →
    MonteCarlo.discCallPayoff inp nSteps g off i =
      MonteCarlo.discCallPayoff inp nSteps g' off' i := by
  intro i hi
  unfold MonteCarlo.discCallPayoff
  rw [hterm i hi]
have hp : ∀ i, i < nSims →
    MonteCarlo.discPutPayoff inp nSteps g off i =
      MonteCarlo.discPutPayoff inp nSteps g' off' i := by
  intro i hi
  unfold MonteCarlo.discPutPayoff
  rw [hterm i hi]
constructor
· refine Prod.ext ?_ ?_
  · exact MonteCarlo.mcMean_congr _ _ _ hc
  · show MonteCarlo.mcStd nSims _ / Real.sqrt nSims =
      MonteCarlo.mcStd nSims _ / Real.sqrt nSims
    rw [MonteCarlo.mcStd_congr _ _ _ hc]
· refine Prod.ext ?_ ?_
  · exact MonteCarlo.mcMean_congr _ _ _ hp
  · show MonteCarlo.mcStd nSims _ / Real.sqrt nSims =
      MonteCarlo.mcStd nSims _ / Real.sqrt nSims
    rw [MonteCarlo.mcStd_congr _ _ _ hp]

/-- Witness for the amended C5: two streams that differ outside the
consumed window (one path, one step, offsets 0 and 1) yield identical
results. -/
theorem c5_determinism_witness :
    MonteCarlo.priceEuropeanCall ⟨1, 1, 1, 0, 1⟩ 1 1 (fun _ => (0 : ℝ)) 0 =
      MonteCarlo.priceEuropeanCall ⟨1, 1, 1, 0, 1⟩ 1 1
        (fun k => if k < 5 then (0 : ℝ) else 7) 1 ∧
    MonteCarlo.priceEuropeanPut ⟨1, 1, 1, 0, 1⟩ 1 1 (fun _ => (0 : ℝ)) 0 =
      MonteCarlo.priceEuropeanPut ⟨1, 1, 1, 0, 1⟩ 1 1
        (fun k => if k < 5 then (0 : ℝ) else 7) 1 :=
c5_determinism_amended ⟨1, 1, 1, 0, 1⟩ 1 1 (fun _ => (0 : ℝ))
  (fun k => if k < 5 then (0 : ℝ) else 7) 0 1
  (by
    intro i j hi hj
    interval_cases i
    interval_cases j
    norm_num)

/-- C5 (counterexample): the source draws its normals from the
process-global NumPy generator and accepts no seed or generator; with
the hidden stream offset advanced between two otherwise identical
calls (S = K = T = sigma = 1, r = 0, one path, one step), the returned
prices differ: the first call sees the draw 0 and prices 0, the second
sees the draw 2 and prices exp(3/2) - 1 > 0. -/
theorem c5_counterexample :
    (MonteCarlo.priceEuropeanCall ⟨1, 1, 1, 0, 1⟩ 1 1
        (fun k => if k = 0 then (0 : ℝ) else 2) 0).1 ≠
    (MonteCarlo.priceEuropeanCall ⟨1, 1, 1, 0, 1⟩ 1 1
        (fun k => if k = 0 then (0 : ℝ) else 2) 1).1 := by
have hdt : MonteCarlo.dt ⟨1, 1, 1, 0, 1⟩ 1 = 1 := by
  unfold MonteCarlo.dt
  norm_num
have hdrift : MonteCarlo.drift ⟨1, 1, 1, 0, 1⟩ 1 = -(1 / 2) := by
  unfold MonteCarlo.drift
  rw [hdt]
  norm_num
have hvol : MonteCarlo.vol ⟨1, 1, 1, 0, 1⟩ 1 = 1 := by
  unfold MonteCarlo.vol
  rw [hdt]
  norm_num
have hmean : ∀ off : ℕ,
    (MonteCarlo.priceEuropeanCall ⟨1, 1, 1, 0, 1⟩ 1 1
        (fun k => if k = 0 then (0 : ℝ) else 2) off).1 =
      MonteCarlo.discCallPayoff ⟨1, 1, 1, 0, 1⟩ 1
        (fun k => if k = 0 then (0 : ℝ) else 2) off 0 := by
  intro off
  show MonteCarlo.mcMean 1 _ = _
  unfold MonteCarlo.mcMean
  rw [Finset.sum_range_one]
  norm_num
have hterm0 : MonteCarlo.terminalPrice ⟨1, 1, 1, 0, 1⟩ 1
    (fun k => if k = 0 then (0 : ℝ) else 2) 0 0 = Real.exp (-(1 / 2)) := by
  unfold MonteCarlo.terminalPrice
  rw [Finset.sum_range_one]
  unfold MonteCarlo.logret MonteCarlo.zdraw
  rw [hdrift, hvol]
  norm_num
have hterm1 : MonteCarlo.terminalPrice ⟨1, 1, 1, 0, 1⟩ 1
    (fun k => if k = 0 then (0 : ℝ) else 2) 1 0 = Real.exp (3 / 2) := by
  unfold MonteCarlo.terminalPrice
  rw [Finset.sum_range_one]
  unfold MonteCarlo.logret MonteCarlo.zdraw
  rw [hdrift, hvol]
  norm_num
have hd0 : MonteCarlo.discCallPayoff ⟨1, 1, 1, 0, 1⟩ 1
    (fun k => if k = 0 then (0 : ℝ) else 2) 0 0 = 0 := by
  unfold MonteCarlo.discCallPayoff
  rw [hterm0]
  rw [show (-(⟨1, 1, 1, 0, 1⟩ : MonteCarlo.Inputs).r *
      (⟨1, 1, 1, 0, 1⟩ : MonteCarlo.Inputs).T) = (0 : ℝ) by norm_num]
  rw [Real.exp_zero]
  rw [show (⟨1, 1, 1, 0, 1⟩ : MonteCarlo.Inputs).K = (1 : ℝ) from rfl]
  rw [max_eq_right (sub_nonpos.mpr (le_of_lt
    (Real.exp_lt_one_iff.mpr (by norm_num))))]
  ring
have hd1 : MonteCarlo.discCallPayoff ⟨1, 1, 1, 0, 1⟩ 1
    (fun k => if k = 0 then (0 : ℝ) else 2) 1 0 =
    Real.exp (3 / 2) - 1 := by
  unfold MonteCarlo.discCallPayoff
  rw [hterm1]
  rw [show (-(⟨1, 1, 1, 0, 1⟩ : MonteCarlo.Inputs).r *
      (⟨1, 1, 1, 0, 1⟩ : MonteCarlo.Inputs).T) = (0 : ℝ) by norm_num]
  rw [Real.exp_zero]
  rw [show (⟨1, 1, 1, 0, 1⟩ : MonteCarlo.Inputs).K = (1 : ℝ) from rfl]
  rw [max_eq_left (sub_nonneg.mpr (le_of_lt
    (Real.one_lt_exp_iff.mpr (by norm_num))))]
  ring
rw [hmean 0, hmean 1, hd0, hd1]
have : (1 : ℝ) < Real.exp (3 / 2) := Real.one_lt_exp_iff.mpr (by norm_num)
intro heq
nlinarith

/-- C6 (amended): the grid spans 10 to 300 percent of spot, max profit
is reported unbounded exactly when the payoff is still increasing at
the upper grid boundary, and max loss is reported unbounded exactly
when the payoff is decreasing at the LOWER grid boundary
(payoffs[0] < payoffs[1]); a payoff still decreasing toward the upper
boundary, as for a short call, is NOT detected and max loss is then the
finite sampled minimum. -/
theorem c6_max_profit_loss_amended (S T r sigma : ℝ)
    (legs : List OptionStrategy.Leg) :
    OptionStrategy.grid S 0 = S * 0.1 ∧
    OptionStrategy.grid S 999 = S * 3 ∧
    ((OptionStrategy.maxProfitLoss S T r sigma legs).1 = none ↔
      OptionStrategy.payoff S T r sigma legs (OptionStrategy.grid S 998) <
        OptionStrategy.payoff S T r sigma legs (OptionStrategy.grid S 999)) ∧
    ((OptionStrategy.maxProfitLoss S T r sigma legs).2 = none ↔
      OptionStrategy.payoff S T r sigma legs (OptionStrategy.grid S 0) <
        OptionStrategy.payoff S T r sigma legs (OptionStrategy.grid S 1)) := by
refine ⟨?_, ?_, ?_, ?_⟩
· unfold OptionStrategy.grid
  norm_num
· unfold OptionStrategy.grid
  push_cast
  ring_nf
· show (if OptionStrategy.payoff S T r sigma legs (OptionStrategy.grid S 999) >
      OptionStrategy.payoff S T r sigma legs (OptionStrategy.grid S 998)
    then (none : Option ℝ)
    else some (OptionStrategy.sampledMax S T r sigma legs)) = none ↔ _
  by_cases h : OptionStrategy.payoff S T r sigma legs
      (OptionStrategy.grid S 998) <
      OptionStrategy.payoff S T r sigma legs (OptionStrategy.grid S 999)
  · rw [if_pos h]
    simp [h]
  · rw [if_neg h]
    simp [h]
· show (if OptionStrategy.payoff S T r sigma legs (OptionStrategy.grid S 0) <
      OptionStrategy.payoff S T r sigma legs (OptionStrategy.grid S 1)
    then (none : Option ℝ)
    else some (OptionStrategy.sampledMin S T r sigma legs)) = none ↔ _
  by_cases h : OptionStrategy.payoff S T r sigma legs
      (OptionStrategy.grid S 0) <
      OptionStrategy.payoff S T r sigma legs (OptionStrategy.grid S 1)
  · rw [if_pos h]
    simp [h]
  · rw [if_neg h]
    simp [h]

/-- C6 (counterexample): for a single short call (S = 100, strike 100)
the payoff is strictly decreasing at the upper grid boundary, yet the
code reports the finite sampled minimum as max loss instead of
unbounded, because only the lower boundary is checked for a decrease. -/
theorem c6_counterexample :
    OptionStrategy.payoff 100 1 0 1
        [⟨OptKind.call, 100, OptionStrategy.Pos.short, 1⟩]
        (OptionStrategy.grid 100 999) <
      OptionStrategy.payoff 100 1 0 1
        [⟨OptKind.call, 100, OptionStrategy.Pos.short, 1⟩]
        (OptionStrategy.grid 100 998) ∧
    (OptionStrategy.maxProfitLoss 100 1 0 1
        [⟨OptKind.call, 100, OptionStrategy.Pos.short, 1⟩]).2 =
      some (OptionStrategy.sampledMin 100 1 0 1
        [⟨OptKind.call, 100, OptionStrategy.Pos.short, 1⟩]) := by
have hpay : ∀ x : ℝ, OptionStrategy.payoff 100 1 0 1
    [⟨OptKind.call, 100, OptionStrategy.Pos.short, 1⟩] x =
    -max (x - 100) 0 + BlackScholes.callPrice 100 100 1 0 1 := by
  intro x
  unfold OptionStrategy.payoff OptionStrategy.totalPremium
    OptionStrategy.legPayoff OptionStrategy.legPrice
  simp
have hg999 : OptionStrategy.grid 100 999 = 300 := by
  unfold OptionStrategy.grid
  push_cast
  ring_nf
have hg998 : OptionStrategy.grid 100 998 = 299410 / 999 := by
  unfold OptionStrategy.grid
  push_cast
  ring_nf
have hg0 : OptionStrategy.grid 100 0 = 10 := by
  unfold OptionStrategy.grid
  norm_num
have hg1 : OptionStrategy.grid 100 1 = 10280 / 999 := by
  unfold OptionStrategy.grid
  push_cast
  ring_nf
constructor
· rw [hpay, hpay, hg999, hg998]
  rw [max_eq_left (by norm_num : (0 : ℝ) ≤ 300 - 100)]
  rw [max_eq_left (by norm_num : (0 : ℝ) ≤ 299410 / 999 - 100)]
  have h298 : (299410 : ℝ) / 999 < 300 := by norm_num
  linarith
· have hcond : ¬(OptionStrategy.payoff 100 1 0 1
      [⟨OptKind.call, 100, OptionStrategy.Pos.short, 1⟩]
      (OptionStrategy.grid 100 0) <
      OptionStrategy.payoff 100 1 0 1
      [⟨OptKind.call, 100, OptionStrategy.Pos.short, 1⟩]
      (OptionStrategy.grid 100 1)) := by
    rw [hpay, hpay, hg0, hg1]
    rw [max_eq_right (by norm_num : (10 : ℝ) - 100 ≤ 0)]
    rw [max_eq_right (by norm_num : (10280 : ℝ) / 999 - 100 ≤ 0)]
    simp
  show (if OptionStrategy.payoff 100 1 0 1
      [⟨OptKind.call, 100, OptionStrategy.Pos.short, 1⟩]
      (OptionStrategy.grid 100 0) <
      OptionStrategy.payoff 100 1 0 1
      [⟨OptKind.call, 100, OptionStrategy.Pos.short, 1⟩]
      (OptionStrategy.grid 100 1)
    then (none : Option ℝ)
    else some (OptionStrategy.sampledMin 100 1 0 1
      [⟨OptKind.call, 100, OptionStrategy.Pos.short, 1⟩])) = some _
  rw [if_neg hcond]

/-- C8: for every lattice step i below the terminal one, the boundary
is the minimum (calls) or maximum (puts) stock price among the nodes of
step i whose exercise value strictly exceeds their continuation value
and is strictly positive, and it is none exactly when no node of the
step satisfies that condition. -/
theorem c8_early_exercise_boundary (inp : BinomialTree.Inputs) (i : ℕ)
    (hi : i < inp.N) :
    (BinomialTree.earlyExerciseBoundary inp OptKind.call i = none ↔
      ∀ j, j ≤ i →
        ¬BinomialTree.exerciseOptimalAt inp (BinomialTree.callPayoff inp) i j) ∧
    (∀ b, BinomialTree.earlyExerciseBoundary inp OptKind.call i = some b →
      (∃ j, j ≤ i ∧
        BinomialTree.exerciseOptimalAt inp (BinomialTree.callPayoff inp) i j ∧
        BinomialTree.stock inp i j = b) ∧
      ∀ j, j ≤ i →
        BinomialTree.exerciseOptimalAt inp (BinomialTree.callPayoff inp) i j →
        b ≤ BinomialTree.stock inp i j) ∧
    (BinomialTree.earlyExerciseBoundary inp OptKind.put i = none ↔
      ∀ j, j ≤ i →
        ¬BinomialTree.exerciseOptimalAt inp (BinomialTree.putPayoff inp) i j) ∧
    (∀ b, BinomialTree.earlyExerciseBoundary inp OptKind.put i = some b →
      (∃ j, j ≤ i ∧
        BinomialTree.exerciseOptimalAt inp (BinomialTree.putPayoff inp) i j ∧
        BinomialTree.stock inp i j = b) ∧
      ∀ j, j ≤ i →
        BinomialTree.exerciseOptimalAt inp (BinomialTree.putPayoff inp) i j →
        BinomialTree.stock inp i j ≤ b) := by
refine ⟨?_, ?_, ?_, ?_⟩
· show BinomialTree.listMin _ = none ↔ _
  rw [BinomialTree.listMin_eq_none_iff]
  exact BinomialTree.exercisePrices_eq_nil_iff inp _ i
· intro b hb
  have h := BinomialTree.listMin_eq_some _ b hb
  constructor
  · exact (BinomialTree.mem_exercisePrices inp _ i b).mp h.1
  · intro j hj hopt
    exact h.2 _ ((BinomialTree.mem_exercisePrices inp _ i _).mpr
      ⟨j, hj, hopt, rfl⟩)
· show BinomialTree.listMax _ = none ↔ _
  rw [BinomialTree.listMax_eq_none_iff]
  exact BinomialTree.exercisePrices_eq_nil_iff inp _ i
· intro b hb
  have h := BinomialTree.listMax_eq_some _ b hb
  constructor
  · exact (BinomialTree.mem_exercisePrices inp _ i b).mp h.1
  · intro j hj hopt
    exact h.2 _ ((BinomialTree.mem_exercisePrices inp _ i _).mpr
      ⟨j, hj, hopt, rfl⟩)

/-- Witness for C8, instantiating the none-characterisation at step 0
of a one-step tree. -/
theorem c8_early_exercise_boundary_witness :
    BinomialTree.earlyExerciseBoundary ⟨1, 1, 1, 0, 1, 1⟩ OptKind.call 0 =
        none ↔
      ∀ j, j ≤ 0 →
        ¬BinomialTree.exerciseOptimalAt ⟨1, 1, 1, 0, 1, 1⟩
          (BinomialTree.callPayoff ⟨1, 1, 1, 0, 1, 1⟩) 0 j :=
(c8_early_exercise_boundary ⟨1, 1, 1, 0, 1, 1⟩ 0 (by decide)).1
